import Mathlib

/-! Verification of the hybrid retrieval and rank-fusion engine of
`knowledge/scripts/rag_query.py`, shallowly embedded in Lean.

Modelling choices:
* Python floats are modelled as exact rationals `ℚ`.
* A search hit is a Python dict; the pipeline reads and writes the keys
  `content`, `_distance`, `_vector_rank`, `_fts_rank`, `_hybrid_score`,
  `_rerank_score`, `_category`.  These are modelled as a record with
  `Option` fields (an absent key is `none`).  Metadata fields that the
  control flow never inspects (confidence, tags, related symbols, ...)
  are elided.
* `table.search(...).to_list()` calls may raise; they are modelled as
  `Except Unit`-valued functions.  A `try ... except: pass` around a loop
  over the result is the same as looping over the empty list.
* A Python `dict` preserves insertion order; `results_map` is modelled as
  an insertion-ordered association list.
* Python `list.sort`/`sorted` are stable sorts; they are modelled by
  `List.insertionSort` with the non-strict relation of the sort key,
  which is likewise stable (the element inserted first is placed before
  later elements with an equal key).
-/

namespace RagQuery

/-- A hit as returned by a backing search (vector or FTS): the entry
content plus, for vector hits, the `_distance` column. -/
structure RawHit where
  content : String
  distance : Option ℚ
deriving DecidableEq, Repr

/-- A hit record as manipulated by the query pipeline (a Python dict in
the source); `none` models an absent key. -/
structure Hit where
  content : String
  distance : Option ℚ
  vectorRank : Option ℕ
  ftsRank : Option ℕ
  hybridScore : Option ℚ
  rerankScore : Option ℚ
  category : Option String
deriving DecidableEq, Repr

/-- `hit.copy()` of a raw search hit, before any pipeline key is added. -/
def RawHit.toHit (r : RawHit) : Hit :=
  { content := r.content, distance := r.distance, vectorRank := none,
    ftsRank := none, hybridScore := none, rerankScore := none, category := none }

/-- One category's table: `table.search(embedding).limit(n).to_list()` and
`table.search(text, query_type="fts").limit(n).to_list()`; `.error ()`
models a raised exception. -/
structure Table where
  vectorSearch : List ℚ → ℕ → Except Unit (List RawHit)
  ftsSearch : String → ℕ → Except Unit (List RawHit)

/-- The database handle: `db.list_tables()` and `db.open_table(name)`. -/
structure DB where
  listTables : List String
  openTable : String → Except Unit Table

/-- `RRF_FALLBACK_RANK` (rag_query.py line 30). -/
def RRF_FALLBACK_RANK : ℕ := 1000

/-- `results_map[content]` as a read: first entry of the association list
with the given key. -/
def lookup (m : List (String × Hit)) (c : String) : Option Hit :=
  (m.find? fun p => p.1 == c).map Prod.snd

/-- One step of the vector-hit loop of `hybrid_search`
(rag_query.py lines 109-118): insert a fresh content at rank `i`, or keep
the best (lowest) vector rank for a duplicate. -/
def addVectorHit (i : ℕ) (hit : RawHit) (m : List (String × Hit)) :
    List (String × Hit) :=
  match lookup m hit.content with
  | none => m ++ [(hit.content, { hit.toHit with vectorRank := some i })]
  | some _ => m.map fun p =>
      if p.1 = hit.content then
        (p.1, { p.2 with vectorRank := some (min i (p.2.vectorRank.getD i)) })
      else p

/-- The `for i, hit in enumerate(vector_hits)` loop, starting at index `i`. -/
def addVectorHits (m : List (String × Hit)) (i : ℕ) :
    List RawHit → List (String × Hit)
  | [] => m
  | hit :: rest => addVectorHits (addVectorHit i hit m) (i + 1) rest

/-- One step of the FTS-hit loop of `hybrid_search`
(rag_query.py lines 125-134). -/
def addFtsHit (i : ℕ) (hit : RawHit) (m : List (String × Hit)) :
    List (String × Hit) :=
  match lookup m hit.content with
  | none => m ++ [(hit.content, { hit.toHit with ftsRank := some i })]
  | some _ => m.map fun p =>
      if p.1 = hit.content then
        (p.1, { p.2 with ftsRank := some (min i (p.2.ftsRank.getD i)) })
      else p

/-- The `for i, hit in enumerate(fts_hits)` loop, starting at index `i`. -/
def addFtsHits (m : List (String × Hit)) (i : ℕ) :
    List RawHit → List (String × Hit)
  | [] => m
  | hit :: rest => addFtsHits (addFtsHit i hit m) (i + 1) rest

/-- A raised search (`except: pass`) contributes the same as an empty
result list. -/
def exceptList (r : Except Unit (List RawHit)) : List RawHit :=
  match r with
  | .error _ => []
  | .ok l => l

/-- `results_map` after both loops of `hybrid_search`. -/
def buildMap (V F : List RawHit) : List (String × Hit) :=
  addFtsHits (addVectorHits [] 0 V) 0 F

/-- Reciprocal rank fusion score (rag_query.py lines 146-150) with the
standard constant `k = 60`:
`hybrid_weight / (k + vector_rank) + (1 - hybrid_weight) / (k + fts_rank)`. -/
def rrfScore (w : ℚ) (vector_rank fts_rank : ℕ) : ℚ :=
  w / (60 + (vector_rank : ℚ)) + (1 - w) / (60 + (fts_rank : ℚ))

/-- The score-assignment step of the fusion loop (rag_query.py lines
141-152): missing ranks fall back to `RRF_FALLBACK_RANK`. -/
def scoreHit (w : ℚ) (h : Hit) : Hit :=
  { h with hybridScore :=
      (some (rrfScore w (h.vectorRank.getD RRF_FALLBACK_RANK)
        (h.ftsRank.getD RRF_FALLBACK_RANK))) }

/-- Sort key `x.get('_hybrid_score', 0)`; inside `hybrid_search` every
entry carries the key, so the default is never read there. -/
def hybridKey (h : Hit) : ℚ := h.hybridScore.getD 0

/-- The comparison of `results.sort(key=lambda x: ..., reverse=True)`
on hybrid scores: `a` may be placed before `b`. -/
def hybridGE (a b : Hit) : Prop := hybridKey b ≤ hybridKey a

instance : DecidableRel hybridGE := fun a b =>
  inferInstanceAs (Decidable (hybridKey b ≤ hybridKey a))

instance : IsTotal Hit hybridGE := ⟨fun a b => le_total (hybridKey b) (hybridKey a)⟩

instance : IsTrans Hit hybridGE := ⟨fun _ _ _ h₁ h₂ => le_trans h₂ h₁⟩

/-- `results.sort(key=lambda x: ..., reverse=True)`: a stable descending
sort by `hybridKey`. -/
def sortHybridDesc (l : List Hit) : List Hit :=
  l.insertionSort hybridGE

/-- Sort key `x.get('_distance', float('inf'))` as a Boolean comparison:
a missing distance compares as `+∞`. -/
def distLeB : Option ℚ → Option ℚ → Bool
  | _, none => true
  | none, some _ => false
  | some a, some b => a ≤ b

/-- The comparison of the ascending distance sort of `query`. -/
def distLeRel (a b : Hit) : Prop := distLeB a.distance b.distance = true

instance : DecidableRel distLeRel := fun a b =>
  inferInstanceAs (Decidable (_ = true))

/-- `results.sort(key=lambda x: x.get('_distance', float('inf')))`: a
stable ascending sort by distance. -/
def sortDistAsc (l : List Hit) : List Hit :=
  l.insertionSort distLeRel

/-- Sort key `x['_rerank_score']` of `rerank` (every scored hit carries
the key, so the default is never read). -/
def rerankGE (a b : Hit) : Prop := b.rerankScore.getD 0 ≤ a.rerankScore.getD 0

instance : DecidableRel rerankGE := fun a b =>
  inferInstanceAs (Decidable (_ ≤ _))

instance : IsTotal Hit rerankGE := ⟨fun a b => le_total _ _⟩

instance : IsTrans Hit rerankGE := ⟨fun _ _ _ h₁ h₂ => le_trans h₂ h₁⟩

/-- rag_query.py `rerank` (lines 74-87).  The cross-encoder
`reranker.predict` scores each `(query, content)` pair independently and
is modelled as the opaque `model`.  An empty candidate list is returned
unchanged before the model is ever consulted. -/
def rerank (model : String → String → ℚ) (query_text : String)
    (results : List Hit) (top_k : ℕ) : List Hit :=
  if results.isEmpty then results
  else
    let scored := results.map fun r =>
      { r with rerankScore := some (model query_text r.content) }
    (scored.insertionSort rerankGE).take top_k

/-- rag_query.py `hybrid_search` (lines 90-156): fetch `2 * limit` hits
from each modality, fuse by content with RRF, sort by descending hybrid
score, truncate to `limit`. -/
def hybrid_search (table : Table) (query_text : String) (embedding : List ℚ)
    (limit : ℕ) (hybrid_weight : ℚ) : List Hit :=
  let m := buildMap (exceptList (table.vectorSearch embedding (limit * 2)))
    (exceptList (table.ftsSearch query_text (limit * 2)))
  let results := m.map fun p => scoreHit hybrid_weight p.2
  (sortHybridDesc results).take limit

/-- The body of the `for table_name in tables` loop of `query`
(rag_query.py lines 197-210): the hits appended for one category; a raised
exception (`except: continue`) contributes nothing.  The loop only extends
`results`, so the loop is the concatenation of these per-category lists. -/
def categoryHits (db : DB) (text : String) (embedding : List ℚ)
    (use_hybrid : Bool) (fetch_limit : ℕ) (hybrid_weight : ℚ)
    (table_name : String) : List Hit :=
  match db.openTable table_name with
  | .error _ => []
  | .ok table =>
    if use_hybrid then
      (hybrid_search table text embedding fetch_limit hybrid_weight).map
        fun h => { h with category := some table_name }
    else
      match table.vectorSearch embedding fetch_limit with
      | .error _ => []
      | .ok raw => raw.map fun r => { r.toHit with category := some table_name }

/-- The category set searched by `query` (rag_query.py lines 188-192):
the single named category, or every table of the database for `"all"`. -/
def queryTables (db : DB) (category : String) : List String :=
  if category = "all" then db.listTables else [category]

/-- `fetch_limit = limit * 3 if use_rerank else limit`
(rag_query.py line 195). -/
def fetchLimit (limit : ℕ) (use_rerank : Bool) : ℕ :=
  if use_rerank then limit * 3 else limit

/-- The concatenated per-category hit lists accumulated by the
`for table_name in tables` loop of `query`. -/
def globalCandidates (db : DB) (text : String) (embedding : List ℚ)
    (use_hybrid : Bool) (fetch_limit : ℕ) (hybrid_weight : ℚ)
    (category : String) : List Hit :=
  ((queryTables db category).map
    (categoryHits db text embedding use_hybrid fetch_limit hybrid_weight)).flatten

/-- rag_query.py `query` (lines 159-229).  The embedding model is the
opaque `embed` (computed once); `log_query` never affects the returned
value and is omitted. -/
def query (db : DB) (embed : String → List ℚ) (model : String → String → ℚ)
    (text : String) (category : String) (limit : ℕ)
    (use_rerank : Bool) (use_hybrid : Bool) (hybrid_weight : ℚ) : List Hit :=
  let embedding := embed text
  let fetch_limit := fetchLimit limit use_rerank
  let results := globalCandidates db text embedding use_hybrid fetch_limit
    hybrid_weight category
  let results := if use_hybrid then sortHybridDesc results else sortDistAsc results
  let results := results.take fetch_limit
  if use_rerank && !results.isEmpty then rerank model text results limit
  else results.take limit

/-! Helper notions for the proofs.  `firstIdxFrom p i l` is the index of
the first element of `l` satisfying `p`, counting from `i`; `firstIdx`
is therefore the deduplicated 0-based rank a content string receives in
a modality's hit list (the least index among all of its occurrences). -/

/-- Index of the first hit satisfying `p`, counting from `i`. -/
def firstIdxFrom (p : RawHit → Bool) (i : ℕ) : List RawHit → Option ℕ
  | [] => none
  | r :: rest => if p r then some i else firstIdxFrom p (i + 1) rest

/-- The deduplicated 0-based rank of the first hit satisfying `p`. -/
def firstIdx (p : RawHit → Bool) (l : List RawHit) : Option ℕ :=
  firstIdxFrom p 0 l

theorem firstIdxFrom_ge {p : RawHit → Bool} :
    ∀ {l : List RawHit} {i j : ℕ}, firstIdxFrom p i l = some j → i ≤ j
  | [], _, _, h => by simp [firstIdxFrom] at h
  | r :: rest, i, j, h => by
    by_cases hp : p r
    · simp [firstIdxFrom, hp] at h
      omega
    · simp only [firstIdxFrom, hp, if_neg, Bool.false_eq_true, ite_false] at h
      have := firstIdxFrom_ge (l := rest) (i := i + 1) h
      omega

theorem firstIdxFrom_eq_none {p : RawHit → Bool} :
    ∀ {l : List RawHit} {i : ℕ},
      firstIdxFrom p i l = none ↔ ∀ r ∈ l, p r = false
  | [], i => by simp [firstIdxFrom]
  | r :: rest, i => by
    by_cases hp : p r <;>
      simp [firstIdxFrom, hp, firstIdxFrom_eq_none (l := rest) (i := i + 1)]

theorem firstIdxFrom_le {p : RawHit → Bool} :
    ∀ {l : List RawHit} (i k : ℕ) (hk : k < l.length),
      p (l.get ⟨k, hk⟩) = true →
      ∃ j, firstIdxFrom p i l = some j ∧ j ≤ i + k
  | [], _, k, hk, _ => absurd hk (by simp)
  | r :: rest, i, k, hk, hp => by
    by_cases hpr : p r
    · exact ⟨i, by simp [firstIdxFrom, hpr], by omega⟩
    · match k with
      | 0 => exact absurd hp (by simpa using hpr)
      | k + 1 =>
        obtain ⟨j, hj, hjk⟩ :=
          firstIdxFrom_le (l := rest) (i + 1) k (by simpa using hk) (by simpa using hp)
        exact ⟨j, by simpa [firstIdxFrom, hpr] using hj, by omega⟩

theorem lookup_nil (c : String) : lookup [] c = none := rfl

theorem lookup_append (m₁ m₂ : List (String × Hit)) (c : String) :
    lookup (m₁ ++ m₂) c = (lookup m₁ c).or (lookup m₂ c) := by
  unfold lookup
  rw [List.find?_append]
  cases m₁.find? fun p => p.1 == c <;> simp

theorem lookup_singleton (c : String) (e : String × Hit) :
    lookup [e] c = if e.1 = c then some e.2 else none := by
  by_cases h : e.1 = c
  · simp [lookup, List.find?, h]
  · have hb : (e.1 == c) = false := beq_eq_false_iff_ne.mpr h
    simp [lookup, List.find?, hb, h]

/-- The in-place update `results_map[content][...] = ...` applied to every
entry with the given key (the shape of the `else` branches of both loops
of `hybrid_search`). -/
def updateAt (key : String) (upd : Hit → Hit) (m : List (String × Hit)) :
    List (String × Hit) :=
  m.map fun p => if p.1 = key then (p.1, upd p.2) else p

theorem lookup_updateAt_self (key : String) (upd : Hit → Hit)
    (m : List (String × Hit)) :
    lookup (updateAt key upd m) key = (lookup m key).map upd := by
  induction m with
  | nil => rfl
  | cons q m ih =>
    by_cases h : q.1 = key
    · simp [updateAt, lookup, List.find?, h]
    · have hb : (q.1 == key) = false := beq_eq_false_iff_ne.mpr h
      simpa [updateAt, lookup, List.find?, h, hb] using ih

theorem lookup_cons (x : String × Hit) (l : List (String × Hit)) (c : String) :
    lookup (x :: l) c = if x.1 = c then some x.2 else lookup l c := by
  by_cases h : x.1 = c
  · simp [lookup, List.find?, h]
  · have hb : (x.1 == c) = false := beq_eq_false_iff_ne.mpr h
    simp [lookup, List.find?, h, hb]

theorem updateAt_cons (key : String) (upd : Hit → Hit) (q : String × Hit)
    (m : List (String × Hit)) :
    updateAt key upd (q :: m) =
      (if q.1 = key then (q.1, upd q.2) else q) :: updateAt key upd m := rfl

theorem lookup_updateAt_other (key : String) (upd : Hit → Hit)
    (m : List (String × Hit)) (c : String) (hc : key ≠ c) :
    lookup (updateAt key upd m) c = lookup m c := by
  induction m with
  | nil => rfl
  | cons q m ih =>
    rw [updateAt_cons]
    by_cases hq : q.1 = key
    · have hqc : ¬q.1 = c := fun hh => hc (hq.symm.trans hh)
      rw [if_pos hq, lookup_cons, lookup_cons]
      simp only [if_neg hqc]
      exact ih
    · rw [if_neg hq, lookup_cons, lookup_cons]
      by_cases h : q.1 = c
      · rw [if_pos h, if_pos h]
      · rw [if_neg h, if_neg h]
        exact ih

theorem addVectorHit_of_none (i : ℕ) (r : RawHit) (m : List (String × Hit))
    (hl : lookup m r.content = none) :
    addVectorHit i r m =
      m ++ [(r.content, { r.toHit with vectorRank := some i })] := by
  unfold addVectorHit
  rw [hl]

theorem addVectorHit_of_some (i : ℕ) (r : RawHit) (m : List (String × Hit))
    (h : Hit) (hl : lookup m r.content = some h) :
    addVectorHit i r m = updateAt r.content
      (fun x => { x with vectorRank := some (min i (x.vectorRank.getD i)) }) m := by
  unfold addVectorHit
  rw [hl]
  rfl

theorem lookup_addVectorHit_self (i : ℕ) (r : RawHit) (m : List (String × Hit)) :
    lookup (addVectorHit i r m) r.content =
      match lookup m r.content with
      | none => some { r.toHit with vectorRank := some i }
      | some h => some { h with vectorRank := some (min i (h.vectorRank.getD i)) } := by
  cases hl : lookup m r.content with
  | none =>
    rw [addVectorHit_of_none i r m hl, lookup_append, hl, lookup_singleton]
    simp
  | some h =>
    rw [addVectorHit_of_some i r m h hl, lookup_updateAt_self, hl]
    rfl

theorem lookup_addVectorHit_other (i : ℕ) (r : RawHit) (m : List (String × Hit))
    (c : String) (hc : r.content ≠ c) :
    lookup (addVectorHit i r m) c = lookup m c := by
  cases hl : lookup m r.content with
  | none =>
    rw [addVectorHit_of_none i r m hl, lookup_append, lookup_singleton]
    simp [hc]
  | some h =>
    rw [addVectorHit_of_some i r m h hl, lookup_updateAt_other _ _ _ _ hc]

theorem addFtsHit_of_none (i : ℕ) (r : RawHit) (m : List (String × Hit))
    (hl : lookup m r.content = none) :
    addFtsHit i r m =
      m ++ [(r.content, { r.toHit with ftsRank := some i })] := by
  unfold addFtsHit
  rw [hl]

theorem addFtsHit_of_some (i : ℕ) (r : RawHit) (m : List (String × Hit))
    (h : Hit) (hl : lookup m r.content = some h) :
    addFtsHit i r m = updateAt r.content
      (fun x => { x with ftsRank := some (min i (x.ftsRank.getD i)) }) m := by
  unfold addFtsHit
  rw [hl]
  rfl

theorem lookup_addFtsHit_self (i : ℕ) (r : RawHit) (m : List (String × Hit)) :
    lookup (addFtsHit i r m) r.content =
      match lookup m r.content with
      | none => some { r.toHit with ftsRank := some i }
      | some h => some { h with ftsRank := some (min i (h.ftsRank.getD i)) } := by
  cases hl : lookup m r.content with
  | none =>
    rw [addFtsHit_of_none i r m hl, lookup_append, hl, lookup_singleton]
    simp
  | some h =>
    rw [addFtsHit_of_some i r m h hl, lookup_updateAt_self, hl]
    rfl

theorem lookup_addFtsHit_other (i : ℕ) (r : RawHit) (m : List (String × Hit))
    (c : String) (hc : r.content ≠ c) :
    lookup (addFtsHit i r m) c = lookup m c := by
  cases hl : lookup m r.content with
  | none =>
    rw [addFtsHit_of_none i r m hl, lookup_append, lookup_singleton]
    simp [hc]
  | some h =>
    rw [addFtsHit_of_some i r m h hl, lookup_updateAt_other _ _ _ _ hc]

theorem lookup_addVectorHits_of_not_mem :
    ∀ {hits : List RawHit} (i : ℕ) {m : List (String × Hit)} {c : String},
      (∀ r ∈ hits, r.content ≠ c) →
      lookup (addVectorHits m i hits) c = lookup m c
  | [], _, _, _, _ => rfl
  | r :: rest, i, m, c, hne => by
    rw [show addVectorHits m i (r :: rest) =
        addVectorHits (addVectorHit i r m) (i + 1) rest from rfl]
    rw [lookup_addVectorHits_of_not_mem (i + 1)
      (fun r' hr' => hne r' (List.mem_cons_of_mem _ hr'))]
    exact lookup_addVectorHit_other i r m c (hne r (List.mem_cons_self _ _))

theorem lookup_addVectorHits_of_some :
    ∀ {hits : List RawHit} (i : ℕ) {m : List (String × Hit)} {c : String} {h : Hit},
      lookup m c = some h →
      lookup (addVectorHits m i hits) c =
        some { h with vectorRank :=
          match firstIdxFrom (fun r => r.content == c) i hits with
          | none => h.vectorRank
          | some j => some (min j (h.vectorRank.getD j)) }
  | [], i, m, c, h, hl => by
    rw [show addVectorHits m i [] = m from rfl, hl]
    rfl
  | r :: rest, i, m, c, h, hl => by
    rw [show addVectorHits m i (r :: rest) =
        addVectorHits (addVectorHit i r m) (i + 1) rest from rfl]
    by_cases hrc : r.content = c
    · have step : lookup (addVectorHit i r m) c =
          some { h with vectorRank := some (min i (h.vectorRank.getD i)) } := by
        have hs := lookup_addVectorHit_self i r m
        rw [hrc] at hs
        rw [hs, hl]
      rw [lookup_addVectorHits_of_some (i + 1) step]
      have hp : (r.content == c) = true := by simp [hrc]
      cases hrest : firstIdxFrom (fun r' => r'.content == c) (i + 1) rest with
      | none => simp [firstIdxFrom, hp, hrest]
      | some j =>
        have hij : i + 1 ≤ j := firstIdxFrom_ge hrest
        have hmin : min j (min i (h.vectorRank.getD i)) = min i (h.vectorRank.getD i) := by
          omega
        simp [firstIdxFrom, hp, hrest, hmin]
    · have hl' : lookup (addVectorHit i r m) c = some h := by
        rw [lookup_addVectorHit_other i r m c hrc]; exact hl
      rw [lookup_addVectorHits_of_some (i + 1) hl']
      have hp : (r.content == c) = false := by simp [hrc]
      simp [firstIdxFrom, hp]

theorem lookup_addVectorHits_of_none :
    ∀ {hits : List RawHit} (i : ℕ) {m : List (String × Hit)} {c : String},
      lookup m c = none →
      (lookup (addVectorHits m i hits) c).map
          (fun h => (h.vectorRank, h.ftsRank, h.rerankScore)) =
        (firstIdxFrom (fun r => r.content == c) i hits).map
          (fun j => (some j, none, none))
  | [], i, m, c, hl => by
    rw [show addVectorHits m i [] = m from rfl, hl]
    rfl
  | r :: rest, i, m, c, hl => by
    rw [show addVectorHits m i (r :: rest) =
        addVectorHits (addVectorHit i r m) (i + 1) rest from rfl]
    by_cases hrc : r.content = c
    · have step : lookup (addVectorHit i r m) c =
          some { r.toHit with vectorRank := some i } := by
        have hs := lookup_addVectorHit_self i r m
        rw [hrc] at hs
        rw [hs, hl]
      rw [lookup_addVectorHits_of_some (i + 1) step]
      have hp : (r.content == c) = true := by simp [hrc]
      cases hrest : firstIdxFrom (fun r' => r'.content == c) (i + 1) rest with
      | none => simp [firstIdxFrom, hp, hrest, RawHit.toHit]
      | some j =>
        have hij : i + 1 ≤ j := firstIdxFrom_ge hrest
        have hmin : min j i = i := by omega
        simp [firstIdxFrom, hp, hrest, RawHit.toHit, hmin]
    · have hl' : lookup (addVectorHit i r m) c = none := by
        rw [lookup_addVectorHit_other i r m c hrc]; exact hl
      have hp : (r.content == c) = false := by simp [hrc]
      rw [lookup_addVectorHits_of_none (i + 1) hl']
      simp [firstIdxFrom, hp]

theorem lookup_addFtsHits_of_not_mem :
    ∀ {hits : List RawHit} (i : ℕ) {m : List (String × Hit)} {c : String},
      (∀ r ∈ hits, r.content ≠ c) →
      lookup (addFtsHits m i hits) c = lookup m c
  | [], _, _, _, _ => rfl
  | r :: rest, i, m, c, hne => by
    rw [show addFtsHits m i (r :: rest) =
        addFtsHits (addFtsHit i r m) (i + 1) rest from rfl]
    rw [lookup_addFtsHits_of_not_mem (i + 1)
      (fun r' hr' => hne r' (List.mem_cons_of_mem _ hr'))]
    exact lookup_addFtsHit_other i r m c (hne r (List.mem_cons_self _ _))

theorem lookup_addFtsHits_of_some :
    ∀ {hits : List RawHit} (i : ℕ) {m : List (String × Hit)} {c : String} {h : Hit},
      lookup m c = some h →
      lookup (addFtsHits m i hits) c =
        some { h with ftsRank :=
          match firstIdxFrom (fun r => r.content == c) i hits with
          | none => h.ftsRank
          | some j => some (min j (h.ftsRank.getD j)) }
  | [], i, m, c, h, hl => by
    rw [show addFtsHits m i [] = m from rfl, hl]
    rfl
  | r :: rest, i, m, c, h, hl => by
    rw [show addFtsHits m i (r :: rest) =
        addFtsHits (addFtsHit i r m) (i + 1) rest from rfl]
    by_cases hrc : r.content = c
    · have step : lookup (addFtsHit i r m) c =
          some { h with ftsRank := some (min i (h.ftsRank.getD i)) } := by
        have hs := lookup_addFtsHit_self i r m
        rw [hrc] at hs
        rw [hs, hl]
      rw [lookup_addFtsHits_of_some (i + 1) step]
      have hp : (r.content == c) = true := by simp [hrc]
      cases hrest : firstIdxFrom (fun r' => r'.content == c) (i + 1) rest with
      | none => simp [firstIdxFrom, hp, hrest]
      | some j =>
        have hij : i + 1 ≤ j := firstIdxFrom_ge hrest
        have hmin : min j (min i (h.ftsRank.getD i)) = min i (h.ftsRank.getD i) := by
          omega
        simp [firstIdxFrom, hp, hrest, hmin]
    · have hl' : lookup (addFtsHit i r m) c = some h := by
        rw [lookup_addFtsHit_other i r m c hrc]; exact hl
      rw [lookup_addFtsHits_of_some (i + 1) hl']
      have hp : (r.content == c) = false := by simp [hrc]
      simp [firstIdxFrom, hp]

theorem lookup_addFtsHits_of_none :
    ∀ {hits : List RawHit} (i : ℕ) {m : List (String × Hit)} {c : String},
      lookup m c = none →
      (lookup (addFtsHits m i hits) c).map
          (fun h => (h.vectorRank, h.ftsRank, h.rerankScore)) =
        (firstIdxFrom (fun r => r.content == c) i hits).map
          (fun j => (none, some j, none))
  | [], i, m, c, hl => by
    rw [show addFtsHits m i [] = m from rfl, hl]
    rfl
  | r :: rest, i, m, c, hl => by
    rw [show addFtsHits m i (r :: rest) =
        addFtsHits (addFtsHit i r m) (i + 1) rest from rfl]
    by_cases hrc : r.content = c
    · have step : lookup (addFtsHit i r m) c =
          some { r.toHit with ftsRank := some i } := by
        have hs := lookup_addFtsHit_self i r m
        rw [hrc] at hs
        rw [hs, hl]
      rw [lookup_addFtsHits_of_some (i + 1) step]
      have hp : (r.content == c) = true := by simp [hrc]
      cases hrest : firstIdxFrom (fun r' => r'.content == c) (i + 1) rest with
      | none => simp [firstIdxFrom, hp, hrest, RawHit.toHit]
      | some j =>
        have hij : i + 1 ≤ j := firstIdxFrom_ge hrest
        have hmin : min j i = i := by omega
        simp [firstIdxFrom, hp, hrest, RawHit.toHit, hmin]
    · have hl' : lookup (addFtsHit i r m) c = none := by
        rw [lookup_addFtsHit_other i r m c hrc]; exact hl
      have hp : (r.content == c) = false := by simp [hrc]
      rw [lookup_addFtsHits_of_none (i + 1) hl']
      simp [firstIdxFrom, hp]

/-- Master characterisation of `results_map`: an entry exists for a content
string iff it occurs in either hit list, carrying for each modality exactly
the least index of its occurrences (or no rank when absent), and never a
rerank score. -/
theorem buildMap_lookup (V F : List RawHit) (c : String) :
    (lookup (buildMap V F) c).map
        (fun h => (h.vectorRank, h.ftsRank, h.rerankScore)) =
      if firstIdx (fun r => r.content == c) V = none ∧
          firstIdx (fun r => r.content == c) F = none then none
      else some (firstIdx (fun r => r.content == c) V,
        firstIdx (fun r => r.content == c) F, none) := by
  unfold buildMap firstIdx
  cases hv : firstIdxFrom (fun r => r.content == c) 0 V with
  | none =>
    have hnv : ∀ r ∈ V, r.content ≠ c := by
      intro r hr
      have := firstIdxFrom_eq_none.mp hv r hr
      simpa using this
    have h1 : lookup (addVectorHits [] 0 V) c = none := by
      rw [lookup_addVectorHits_of_not_mem 0 hnv]; rfl
    cases hf : firstIdxFrom (fun r => r.content == c) 0 F with
    | none =>
      have hnf : ∀ r ∈ F, r.content ≠ c := by
        intro r hr
        have := firstIdxFrom_eq_none.mp hf r hr
        simpa using this
      rw [lookup_addFtsHits_of_not_mem 0 hnf, h1]
      simp
    | some jf =>
      have h2 := @lookup_addFtsHits_of_none F 0 _ _ h1
      rw [hf] at h2
      rw [h2]
      simp
  | some jv =>
    have h1 := @lookup_addVectorHits_of_none V 0 [] c rfl
    rw [hv] at h1
    obtain ⟨h₁, hl₁, hproj⟩ : ∃ h₁, lookup (addVectorHits [] 0 V) c = some h₁ ∧
        (h₁.vectorRank, h₁.ftsRank, h₁.rerankScore) =
          ((some jv : Option ℕ), (none : Option ℕ), (none : Option ℚ)) := by
      cases hx : lookup (addVectorHits [] 0 V) c with
      | none => rw [hx] at h1; simp at h1
      | some y => rw [hx] at h1; exact ⟨y, rfl, by simpa using h1⟩
    obtain ⟨hvr, hfr, hrr⟩ : h₁.vectorRank = some jv ∧ h₁.ftsRank = none ∧
        h₁.rerankScore = none := by simpa using hproj
    have h2 := @lookup_addFtsHits_of_some F 0 _ _ _ hl₁
    rw [h2]
    cases hf : firstIdxFrom (fun r => r.content == c) 0 F with
    | none => simp [hvr, hfr, hrr]
    | some jf => simp [hvr, hfr, hrr]

theorem updateAt_fst (key : String) (upd : Hit → Hit) (p : String × Hit) :
    ((if p.1 = key then (p.1, upd p.2) else p)).1 = p.1 := by
  split <;> rfl

theorem mem_addVectorHit {i : ℕ} {r : RawHit} {m : List (String × Hit)}
    {p : String × Hit} (hp : p ∈ addVectorHit i r m) :
    p ∈ m ∨ p = (r.content, { r.toHit with vectorRank := some i }) ∨
      ∃ q ∈ m, p = (q.1,
        { q.2 with vectorRank := some (min i (q.2.vectorRank.getD i)) }) := by
  unfold addVectorHit at hp
  cases hl : lookup m r.content with
  | none =>
    rw [hl] at hp
    rcases List.mem_append.mp hp with h | h
    · exact .inl h
    · exact .inr (.inl (by simpa using h))
  | some h =>
    rw [hl] at hp
    obtain ⟨q, hq, hpq⟩ := List.mem_map.mp hp
    by_cases hc : q.1 = r.content
    · exact .inr (.inr ⟨q, hq, by rw [← hpq]; simp [hc]⟩)
    · exact .inl (by rw [← hpq]; simp [hc]; exact hq)

theorem mem_addFtsHit {i : ℕ} {r : RawHit} {m : List (String × Hit)}
    {p : String × Hit} (hp : p ∈ addFtsHit i r m) :
    p ∈ m ∨ p = (r.content, { r.toHit with ftsRank := some i }) ∨
      ∃ q ∈ m, p = (q.1,
        { q.2 with ftsRank := some (min i (q.2.ftsRank.getD i)) }) := by
  unfold addFtsHit at hp
  cases hl : lookup m r.content with
  | none =>
    rw [hl] at hp
    rcases List.mem_append.mp hp with h | h
    · exact .inl h
    · exact .inr (.inl (by simpa using h))
  | some h =>
    rw [hl] at hp
    obtain ⟨q, hq, hpq⟩ := List.mem_map.mp hp
    by_cases hc : q.1 = r.content
    · exact .inr (.inr ⟨q, hq, by rw [← hpq]; simp [hc]⟩)
    · exact .inl (by rw [← hpq]; simp [hc]; exact hq)

theorem keyContent_addVectorHits :
    ∀ {hits : List RawHit} (i : ℕ) {m : List (String × Hit)},
      (∀ p ∈ m, p.1 = p.2.content) →
      ∀ p ∈ addVectorHits m i hits, p.1 = p.2.content
  | [], _, _, hm => hm
  | r :: rest, i, m, hm => by
    refine keyContent_addVectorHits (i + 1) (fun p hp => ?_)
    rcases mem_addVectorHit hp with h | h | ⟨q, hq, rfl⟩
    · exact hm p h
    · rw [h]; rfl
    · exact hm q hq

theorem keyContent_addFtsHits :
    ∀ {hits : List RawHit} (i : ℕ) {m : List (String × Hit)},
      (∀ p ∈ m, p.1 = p.2.content) →
      ∀ p ∈ addFtsHits m i hits, p.1 = p.2.content
  | [], _, _, hm => hm
  | r :: rest, i, m, hm => by
    refine keyContent_addFtsHits (i + 1) (fun p hp => ?_)
    rcases mem_addFtsHit hp with h | h | ⟨q, hq, rfl⟩
    · exact hm p h
    · rw [h]; rfl
    · exact hm q hq

theorem buildMap_key_content (V F : List RawHit) :
    ∀ p ∈ buildMap V F, p.1 = p.2.content :=
  keyContent_addFtsHits 0 (keyContent_addVectorHits 0 (by simp))

/-- No two entries of the association list share a key. -/
def NodupKeys (m : List (String × Hit)) : Prop :=
  m.Pairwise fun p q => p.1 ≠ q.1

theorem nodupKeys_updateAt (key : String) (upd : Hit → Hit)
    {m : List (String × Hit)} (hm : NodupKeys m) :
    NodupKeys (updateAt key upd m) := by
  unfold updateAt
  refine List.pairwise_map.mpr (hm.imp ?_)
  intro p q h
  rw [updateAt_fst, updateAt_fst]
  exact h

theorem nodupKeys_addVectorHit (i : ℕ) (r : RawHit)
    {m : List (String × Hit)} (hm : NodupKeys m) :
    NodupKeys (addVectorHit i r m) := by
  cases hl : lookup m r.content with
  | none =>
    rw [addVectorHit_of_none i r m hl]
    have hfind : m.find? (fun p => p.1 == r.content) = none :=
      Option.map_eq_none'.mp hl
    have hne : ∀ p ∈ m, p.1 ≠ r.content := by
      intro p hp
      have := List.find?_eq_none.mp hfind p hp
      simpa using this
    refine List.pairwise_append.mpr ⟨hm, List.pairwise_singleton _ _, ?_⟩
    intro p hp q hq
    rw [List.mem_singleton.mp hq]
    exact hne p hp
  | some h =>
    rw [addVectorHit_of_some i r m h hl]
    exact nodupKeys_updateAt _ _ hm

theorem nodupKeys_addFtsHit (i : ℕ) (r : RawHit)
    {m : List (String × Hit)} (hm : NodupKeys m) :
    NodupKeys (addFtsHit i r m) := by
  cases hl : lookup m r.content with
  | none =>
    rw [addFtsHit_of_none i r m hl]
    have hfind : m.find? (fun p => p.1 == r.content) = none :=
      Option.map_eq_none'.mp hl
    have hne : ∀ p ∈ m, p.1 ≠ r.content := by
      intro p hp
      have := List.find?_eq_none.mp hfind p hp
      simpa using this
    refine List.pairwise_append.mpr ⟨hm, List.pairwise_singleton _ _, ?_⟩
    intro p hp q hq
    rw [List.mem_singleton.mp hq]
    exact hne p hp
  | some h =>
    rw [addFtsHit_of_some i r m h hl]
    exact nodupKeys_updateAt _ _ hm

theorem nodupKeys_addVectorHits :
    ∀ {hits : List RawHit} (i : ℕ) {m : List (String × Hit)},
      NodupKeys m → NodupKeys (addVectorHits m i hits)
  | [], _, _, hm => hm
  | r :: rest, i, m, hm =>
    nodupKeys_addVectorHits (i + 1) (nodupKeys_addVectorHit i r hm)

theorem nodupKeys_addFtsHits :
    ∀ {hits : List RawHit} (i : ℕ) {m : List (String × Hit)},
      NodupKeys m → NodupKeys (addFtsHits m i hits)
  | [], _, _, hm => hm
  | r :: rest, i, m, hm =>
    nodupKeys_addFtsHits (i + 1) (nodupKeys_addFtsHit i r hm)

theorem nodupKeys_buildMap (V F : List RawHit) : NodupKeys (buildMap V F) :=
  nodupKeys_addFtsHits 0 (nodupKeys_addVectorHits 0 (List.Pairwise.nil))

theorem lookup_of_mem :
    ∀ {m : List (String × Hit)} {p : String × Hit},
      NodupKeys m → p ∈ m → lookup m p.1 = some p.2
  | [], _, _, hp => absurd hp (by simp)
  | q :: m, p, hm, hp => by
    rw [lookup_cons]
    rcases List.mem_cons.mp hp with rfl | hp'
    · rw [if_pos rfl]
    · have hq : q.1 ≠ p.1 := (List.pairwise_cons.mp hm).1 p hp'
      rw [if_neg hq]
      exact lookup_of_mem (List.pairwise_cons.mp hm).2 hp'

@[simp] theorem scoreHit_content (w : ℚ) (h : Hit) :
    (scoreHit w h).content = h.content := rfl

@[simp] theorem scoreHit_distance (w : ℚ) (h : Hit) :
    (scoreHit w h).distance = h.distance := rfl

@[simp] theorem scoreHit_vectorRank (w : ℚ) (h : Hit) :
    (scoreHit w h).vectorRank = h.vectorRank := rfl

@[simp] theorem scoreHit_ftsRank (w : ℚ) (h : Hit) :
    (scoreHit w h).ftsRank = h.ftsRank := rfl

@[simp] theorem scoreHit_rerankScore (w : ℚ) (h : Hit) :
    (scoreHit w h).rerankScore = h.rerankScore := rfl

@[simp] theorem scoreHit_category (w : ℚ) (h : Hit) :
    (scoreHit w h).category = h.category := rfl

@[simp] theorem scoreHit_hybridScore (w : ℚ) (h : Hit) :
    (scoreHit w h).hybridScore =
      some (rrfScore w (h.vectorRank.getD RRF_FALLBACK_RANK)
        (h.ftsRank.getD RRF_FALLBACK_RANK)) := rfl

/-- Every hit returned by `hybrid_search` is the scored copy of an entry
of `results_map`. -/
theorem mem_hybrid_search {table : Table} {qt : String} {e : List ℚ}
    {lim : ℕ} {w : ℚ} {h : Hit}
    (hm : h ∈ hybrid_search table qt e lim w) :
    ∃ p ∈ buildMap (exceptList (table.vectorSearch e (lim * 2)))
        (exceptList (table.ftsSearch qt (lim * 2))), h = scoreHit w p.2 := by
  unfold hybrid_search at hm
  have h1 := List.mem_of_mem_take hm
  rw [sortHybridDesc, List.mem_insertionSort] at h1
  obtain ⟨p, hp, hpe⟩ := List.mem_map.mp h1
  exact ⟨p, hp, hpe.symm⟩

/-- Characterisation of every hit returned by `hybrid_search`: its
recorded ranks are the least occurrence indices of its content in the two
hit lists and its hybrid score is the RRF formula at those ranks, with
`RRF_FALLBACK_RANK` substituted for an absent rank. -/
theorem hybrid_search_ranks {table : Table} {qt : String} {e : List ℚ}
    {lim : ℕ} {w : ℚ} {V F : List RawHit} {h : Hit}
    (hV : table.vectorSearch e (lim * 2) = .ok V)
    (hF : table.ftsSearch qt (lim * 2) = .ok F)
    (hm : h ∈ hybrid_search table qt e lim w) :
    h.vectorRank = firstIdx (fun r => r.content == h.content) V ∧
    h.ftsRank = firstIdx (fun r => r.content == h.content) F ∧
    h.rerankScore = none ∧
    h.hybridScore = some (rrfScore w (h.vectorRank.getD RRF_FALLBACK_RANK)
      (h.ftsRank.getD RRF_FALLBACK_RANK)) := by
  obtain ⟨p, hp, rfl⟩ := mem_hybrid_search hm
  rw [hV, hF] at hp
  have hexc : exceptList (.ok V) = V := rfl
  have hexc2 : exceptList (.ok F) = F := rfl
  rw [hexc, hexc2] at hp
  have hkey : p.1 = p.2.content := buildMap_key_content V F p hp
  have hlk : lookup (buildMap V F) p.1 = some p.2 :=
    lookup_of_mem (nodupKeys_buildMap V F) hp
  have hbm := buildMap_lookup V F p.1
  rw [hlk] at hbm
  by_cases hcond : firstIdx (fun r => r.content == p.1) V = none ∧
      firstIdx (fun r => r.content == p.1) F = none
  · rw [if_pos hcond] at hbm
    simp at hbm
  · rw [if_neg hcond] at hbm
    obtain ⟨hvr, hfr, hrr⟩ :
        p.2.vectorRank = firstIdx (fun r => r.content == p.1) V ∧
        p.2.ftsRank = firstIdx (fun r => r.content == p.1) F ∧
        p.2.rerankScore = none := by simpa using hbm
    rw [hkey] at hvr hfr
    exact ⟨by simpa using hvr, by simpa using hfr, by simpa using hrr, by simp⟩

/-- Claim C1: for every item fused for one category, with `vectorRank` the
item's deduplicated 0-based rank in the vector hit list, `textRank` its
rank in the text hit list, and the fallback rank 1000 substituted for
whichever rank is absent, the computed hybrid score equals exactly
`hybridWeight/(60+vectorRank) + (1-hybridWeight)/(60+textRank)`; in
particular an item present only in the vector list at rank 0 receives
`hybridWeight/60 + (1-hybridWeight)/1060`.  (Determinism is immediate:
the score is a pure function of the two ranks and the weight.) -/
theorem C1_rrf_score_formula {table : Table} {qt : String} {e : List ℚ}
    {lim : ℕ} {w : ℚ} {V F : List RawHit} {h : Hit}
    (hV : table.vectorSearch e (lim * 2) = .ok V)
    (hF : table.ftsSearch qt (lim * 2) = .ok F)
    (hm : h ∈ hybrid_search table qt e lim w) :
    h.hybridScore = some (rrfScore w
      ((firstIdx (fun r => r.content == h.content) V).getD RRF_FALLBACK_RANK)
      ((firstIdx (fun r => r.content == h.content) F).getD RRF_FALLBACK_RANK)) ∧
    (firstIdx (fun r => r.content == h.content) V = some 0 →
      firstIdx (fun r => r.content == h.content) F = none →
      h.hybridScore = some (w / 60 + (1 - w) / 1060)) := by
  obtain ⟨hvr, hfr, _, hscore⟩ := hybrid_search_ranks hV hF hm
  refine ⟨by rw [hscore, hvr, hfr], ?_⟩
  intro hv0 hfn
  rw [hscore, hvr, hfr, hv0, hfn]
  norm_num [rrfScore, RRF_FALLBACK_RANK]

/-- A one-category fixture: a single vector hit `"a0"`, no FTS hits. -/
def tblA : Table :=
  { vectorSearch := fun _ _ => .ok [⟨"a0", some (1/10)⟩]
    ftsSearch := fun _ _ => .ok [] }

theorem C1_rrf_score_formula_witness :
    ((⟨"a0", some (1/10), some 0, none, some (19/1590), none, none⟩ : Hit) ∈
      hybrid_search tblA "q" [1] 1 (7/10)) ∧
    (⟨"a0", some (1/10), some 0, none, some (19/1590), none, none⟩ : Hit).hybridScore =
      some ((7/10) / 60 + (1 - 7/10) / 1060) := by
  have hlist : hybrid_search tblA "q" [1] 1 (7/10) =
      [⟨"a0", some (1/10), some 0, none, some (19/1590), none, none⟩] := by
    with_unfolding_all rfl
  have hmem : (⟨"a0", some (1/10), some 0, none, some (19/1590), none, none⟩ : Hit) ∈
      hybrid_search tblA "q" [1] 1 (7/10) := by
    rw [hlist]
    exact List.mem_singleton_self _
  exact ⟨hmem, (C1_rrf_score_formula rfl rfl hmem).2 (by decide) (by decide)⟩

/-- Claim C6: when the same content string appears at more than one rank
within the same modality's hit list, fusion records for that modality the
minimum (best) 0-based rank among all occurrences — the recorded rank is
the first occurrence index, which is at most every occurrence's index —
and only that recorded rank enters the fused hit. -/
theorem C6_dedup_min_rank {table : Table} {qt : String} {e : List ℚ}
    {lim : ℕ} {w : ℚ} {V F : List RawHit} {h : Hit}
    (hV : table.vectorSearch e (lim * 2) = .ok V)
    (hF : table.ftsSearch qt (lim * 2) = .ok F)
    (hm : h ∈ hybrid_search table qt e lim w) :
    h.vectorRank = firstIdx (fun r => r.content == h.content) V ∧
    h.ftsRank = firstIdx (fun r => r.content == h.content) F ∧
    (∀ k, (hk : k < V.length) → (V.get ⟨k, hk⟩).content = h.content →
      ∃ j, h.vectorRank = some j ∧ j ≤ k) ∧
    (∀ k, (hk : k < F.length) → (F.get ⟨k, hk⟩).content = h.content →
      ∃ j, h.ftsRank = some j ∧ j ≤ k) := by
  obtain ⟨hvr, hfr, _, _⟩ := hybrid_search_ranks hV hF hm
  refine ⟨hvr, hfr, ?_, ?_⟩
  · intro k hk hck
    obtain ⟨j, hj, hjk⟩ := firstIdxFrom_le
      (p := fun r => r.content == h.content) 0 k hk (by simpa using hck)
    exact ⟨j, by rw [hvr]; exact hj, by omega⟩
  · intro k hk hck
    obtain ⟨j, hj, hjk⟩ := firstIdxFrom_le
      (p := fun r => r.content == h.content) 0 k hk (by simpa using hck)
    exact ⟨j, by rw [hfr]; exact hj, by omega⟩

/-- A fixture with a duplicated content `"d"` at vector ranks 3 and 7. -/
def tblDup : Table :=
  { vectorSearch := fun _ _ => .ok
      [⟨"v0", some 1⟩, ⟨"v1", some 2⟩, ⟨"v2", some 3⟩, ⟨"d", some 4⟩,
       ⟨"v4", some 5⟩, ⟨"v5", some 6⟩, ⟨"v6", some 7⟩, ⟨"d", some 8⟩]
    ftsSearch := fun _ _ => .ok [] }

theorem C6_dedup_min_rank_witness :
    ((⟨"d", some 4, some 3, none, some (1123/133560), none, none⟩ : Hit) ∈
      hybrid_search tblDup "q" [1] 5 (1/2)) ∧
    (⟨"d", some 4, some 3, none, some (1123/133560), none, none⟩ : Hit).vectorRank =
      some 3 := by
  have hlist : hybrid_search tblDup "q" [1] 5 (1/2) =
      [⟨"v0", some 1, some 0, none, some (7/795), none, none⟩,
       ⟨"v1", some 2, some 1, none, some (1121/129320), none, none⟩,
       ⟨"v2", some 3, some 2, none, some (561/65720), none, none⟩,
       ⟨"d", some 4, some 3, none, some (1123/133560), none, none⟩,
       ⟨"v4", some 5, some 4, none, some (281/33920), none, none⟩] := by
    with_unfolding_all rfl
  have hmem : (⟨"d", some 4, some 3, none, some (1123/133560), none, none⟩ : Hit) ∈
      hybrid_search tblDup "q" [1] 5 (1/2) := by
    rw [hlist]
    exact List.mem_cons_of_mem _ (List.mem_cons_of_mem _ (List.mem_cons_of_mem _
      (List.mem_cons_self _ _)))
  refine ⟨hmem, ?_⟩
  have h1 := (C6_dedup_min_rank rfl rfl hmem).1
  rw [h1]
  decide

/-- Claim C7: for items A and B with fixed ranks where A ranks strictly
better in vector search than in text search and B has the opposite
profile, the difference of their fused scores is a strictly increasing
function of the hybrid weight on [0,1]. -/
theorem C7_weight_monotonicity {vrA trA vrB trB : ℕ}
    (hA : vrA < trA) (hB : trB < vrB) {w₁ w₂ : ℚ}
    (h0 : 0 ≤ w₁) (h12 : w₁ < w₂) (h1 : w₂ ≤ 1) :
    rrfScore w₁ vrA trA - rrfScore w₁ vrB trB <
      rrfScore w₂ vrA trA - rrfScore w₂ vrB trB := by
  have hA' : ((vrA : ℚ)) < (trA : ℚ) := by exact_mod_cast hA
  have hB' : ((trB : ℚ)) < (vrB : ℚ) := by exact_mod_cast hB
  have pA : (0:ℚ) < 60 + (vrA : ℚ) := by positivity
  have pTA : (0:ℚ) < 60 + (trA : ℚ) := by positivity
  have pB : (0:ℚ) < 60 + (vrB : ℚ) := by positivity
  have pTB : (0:ℚ) < 60 + (trB : ℚ) := by positivity
  have s1 : (1:ℚ)/(60 + (trA : ℚ)) < 1/(60 + (vrA : ℚ)) :=
    one_div_lt_one_div_of_lt pA (by linarith)
  have s2 : (1:ℚ)/(60 + (vrB : ℚ)) < 1/(60 + (trB : ℚ)) :=
    one_div_lt_one_div_of_lt pTB (by linarith)
  have hkey : rrfScore w₂ vrA trA - rrfScore w₂ vrB trB -
      (rrfScore w₁ vrA trA - rrfScore w₁ vrB trB) =
      (w₂ - w₁) * ((1/(60 + (vrA : ℚ)) - 1/(60 + (trA : ℚ))) +
        (1/(60 + (trB : ℚ)) - 1/(60 + (vrB : ℚ)))) := by
    unfold rrfScore
    field_simp
    ring
  have hpos : (0:ℚ) < (w₂ - w₁) * ((1/(60 + (vrA : ℚ)) - 1/(60 + (trA : ℚ))) +
      (1/(60 + (trB : ℚ)) - 1/(60 + (vrB : ℚ)))) :=
    mul_pos (by linarith) (by linarith)
  linarith

theorem C7_weight_monotonicity_witness :
    (0:ℕ) < 3 ∧ (1:ℕ) < 5 ∧ (0:ℚ) ≤ 0 ∧ (0:ℚ) < 1 ∧ (1:ℚ) ≤ 1 ∧
    (rrfScore 0 0 3 - rrfScore 0 5 1 < rrfScore 1 0 3 - rrfScore 1 5 1) :=
  ⟨by decide, by decide, le_refl 0, by norm_num, le_refl 1,
    C7_weight_monotonicity (by decide) (by decide) (le_refl 0) (by norm_num)
      (le_refl 1)⟩

/-- Claim C8: `rerank` returns the candidates scored by the model, sorted
in descending order of their `rerankScore`, truncated to at most `top_k`
elements — exactly `top_k` when at least `top_k` candidates are given,
since the length is `min top_k |candidates|` — and an empty candidate
list is returned unchanged (in the source the early return precedes the
model fetch, so the model is never invoked). -/
theorem C8_rerank_sorted_truncated (model : String → String → ℚ)
    (qt : String) (results : List Hit) (top_k : ℕ) :
    (rerank model qt results top_k).Sorted rerankGE ∧
    (rerank model qt results top_k).length = min top_k results.length ∧
    (∀ h ∈ rerank model qt results top_k, ∃ r ∈ results,
      h = { r with rerankScore := some (model qt r.content) } ∧
      h.rerankScore = some (model qt h.content)) ∧
    rerank model qt [] top_k = [] := by
  refine ⟨?_, ?_, ?_, rfl⟩
  · unfold rerank
    by_cases he : results.isEmpty
    · rw [if_pos he, List.isEmpty_iff.mp he]
      exact List.sorted_nil
    · rw [if_neg he]
      exact (List.sorted_insertionSort rerankGE _).sublist (List.take_sublist _ _)
  · unfold rerank
    by_cases he : results.isEmpty
    · rw [if_pos he, List.isEmpty_iff.mp he]
      simp
    · rw [if_neg he]
      rw [List.length_take, List.length_insertionSort, List.length_map]
  · intro h hm
    unfold rerank at hm
    by_cases he : results.isEmpty
    · rw [if_pos he, List.isEmpty_iff.mp he] at hm
      simp at hm
    · rw [if_neg he] at hm
      have h1 := List.mem_of_mem_take hm
      rw [List.mem_insertionSort] at h1
      obtain ⟨r, hr, rfl⟩ := List.mem_map.mp h1
      exact ⟨r, hr, rfl, rfl⟩

/-- A constant rerank model and twelve fused candidates. -/
def model0 : String → String → ℚ := fun _ _ => 0

/-- Twelve candidate hits for the rerank witness. -/
def rs12 : List Hit :=
  ["h01", "h02", "h03", "h04", "h05", "h06", "h07", "h08", "h09", "h10",
    "h11", "h12"].map fun s => RawHit.toHit ⟨s, none⟩

theorem C8_rerank_sorted_truncated_witness :
    (rerank model0 "q" rs12 5).length = min 5 rs12.length ∧
    (∃ r ∈ rs12, (⟨"h01", none, none, none, none, some 0, none⟩ : Hit) =
      { r with rerankScore := some (model0 "q" r.content) } ∧
      (⟨"h01", none, none, none, none, some 0, none⟩ : Hit).rerankScore =
        some (model0 "q" "h01")) := by
  have hmem : (⟨"h01", none, none, none, none, some 0, none⟩ : Hit) ∈
      rerank model0 "q" rs12 5 := by
    have hlist : rerank model0 "q" rs12 5 =
        [⟨"h01", none, none, none, none, some 0, none⟩,
         ⟨"h02", none, none, none, none, some 0, none⟩,
         ⟨"h03", none, none, none, none, some 0, none⟩,
         ⟨"h04", none, none, none, none, some 0, none⟩,
         ⟨"h05", none, none, none, none, some 0, none⟩] := by
      with_unfolding_all rfl
    rw [hlist]
    exact List.mem_cons_self _ _
  refine ⟨(C8_rerank_sorted_truncated model0 "q" rs12 5).2.1, ?_⟩
  obtain ⟨r, hr, heq, hsc⟩ :=
    (C8_rerank_sorted_truncated model0 "q" rs12 5).2.2.1 _ hmem
  exact ⟨r, hr, heq, hsc⟩

/-- Claim C9: when every adapter search fails (raises) or returns no hits
for every category, `query` returns the empty list; in this embedding
`query` is a total function — mirroring the source's catch-all exception
handlers around each per-category search — so an empty result is a normal
return value, not an error. -/
theorem C9_all_failures_empty {db : DB} {embed : String → List ℚ}
    {model : String → String → ℚ} {text category : String} {limit : ℕ}
    {use_rerank use_hybrid : Bool} {w : ℚ}
    (hfail : ∀ name : String, db.openTable name = .error () ∨
      ∃ table, db.openTable name = .ok table ∧
        (∀ e n, table.vectorSearch e n = .error () ∨
          table.vectorSearch e n = .ok []) ∧
        (∀ q n, table.ftsSearch q n = .error () ∨
          table.ftsSearch q n = .ok [])) :
    query db embed model text category limit use_rerank use_hybrid w = [] := by
  have hcat : ∀ t, categoryHits db text (embed text) use_hybrid
      (fetchLimit limit use_rerank) w t = [] := by
    intro t
    rcases hfail t with he | ⟨table, ht, hv, hf⟩
    · unfold categoryHits
      rw [he]
    · unfold categoryHits
      rw [ht]
      cases use_hybrid with
      | false =>
        rcases hv (embed text) (fetchLimit limit use_rerank) with h | h <;>
          simp [h]
      | true =>
        have hvl : exceptList (table.vectorSearch (embed text)
            (fetchLimit limit use_rerank * 2)) = [] := by
          rcases hv (embed text) (fetchLimit limit use_rerank * 2) with h | h <;>
            simp [exceptList, h]
        have hfl : exceptList (table.ftsSearch text
            (fetchLimit limit use_rerank * 2)) = [] := by
          rcases hf text (fetchLimit limit use_rerank * 2) with h | h <;>
            simp [exceptList, h]
        simp [hybrid_search, hvl, hfl, buildMap, addVectorHits, addFtsHits,
          sortHybridDesc, List.insertionSort]
  have hglobal : globalCandidates db text (embed text) use_hybrid
      (fetchLimit limit use_rerank) w category = [] := by
    unfold globalCandidates
    induction queryTables db category with
    | nil => rfl
    | cons t ts ih => simp [hcat t, ih]
  unfold query
  simp only [hglobal]
  cases use_hybrid <;> cases use_rerank <;>
    simp [sortHybridDesc, sortDistAsc, List.insertionSort, rerank]

/-- A database whose every table access raises. -/
def dbErr : DB := { listTables := ["A", "B"], openTable := fun _ => .error () }

/-- A constant embedding model for concrete fixtures. -/
def embedQ : String → List ℚ := fun _ => [1]

theorem C9_all_failures_empty_witness :
    query dbErr embedQ model0 "question" "all" 5 false true (7/10) = [] :=
  C9_all_failures_empty (fun _ => .inl rfl)

/-- One-hit tables sharing the content string `"x"`, and a two-category
database holding them. -/
def tblX1 : Table :=
  { vectorSearch := fun _ _ => .ok [⟨"x", some (1/10)⟩]
    ftsSearch := fun _ _ => .error () }

def tblX2 : Table :=
  { vectorSearch := fun _ _ => .ok [⟨"x", some (2/10)⟩]
    ftsSearch := fun _ _ => .error () }

def dbX : DB :=
  { listTables := ["A", "B"]
    openTable := fun n =>
      if n = "A" then .ok tblX1 else if n = "B" then .ok tblX2 else .error () }

/-- Claim C10: deduplication by content applies only within one category's
fusion, never across categories: in the corpus `dbX` the same content
`"x"` exists in categories `"A"` and `"B"`, and `query` with
`category = "all"` returns two distinct hits of equal content, one tagged
with each category, because the per-category fused lists are concatenated
without any cross-category deduplication. -/
theorem C10_no_cross_category_dedup :
    (query dbX embedQ model0 "q" "all" 5 false true (7/10)).map
      (fun h => (h.content, h.category)) =
      [("x", some "A"), ("x", some "B")] := by
  with_unfolding_all rfl

/-- Without reranking, every returned hit is one of the concatenated
per-category candidates. -/
theorem mem_query_cands {db : DB} {embed : String → List ℚ}
    {model : String → String → ℚ} {text cat : String} {lim : ℕ}
    {hy : Bool} {w : ℚ} {h : Hit}
    (hm : h ∈ query db embed model text cat lim false hy w) :
    h ∈ globalCandidates db text (embed text) hy (fetchLimit lim false) w cat := by
  unfold query at hm
  simp only [Bool.false_and, Bool.false_eq_true, if_false] at hm
  have h1 := List.mem_of_mem_take (List.mem_of_mem_take hm)
  cases hy with
  | true =>
    rw [if_pos rfl, sortHybridDesc, List.mem_insertionSort] at h1
    exact h1
  | false =>
    rw [if_neg (by simp), sortDistAsc, List.mem_insertionSort] at h1
    exact h1

/-- Every global candidate comes from some category's loop body. -/
theorem mem_globalCandidates {db : DB} {text : String} {e : List ℚ}
    {hy : Bool} {fl : ℕ} {w : ℚ} {cat : String} {h : Hit}
    (hm : h ∈ globalCandidates db text e hy fl w cat) :
    ∃ t, h ∈ categoryHits db text e hy fl w t := by
  unfold globalCandidates at hm
  obtain ⟨l, hl, hhl⟩ := List.mem_flatten.mp hm
  obtain ⟨t, _, rfl⟩ := List.mem_map.mp hl
  exact ⟨t, hhl⟩

/-- In hybrid mode, a category's contribution is a tagged fused hit. -/
theorem mem_categoryHits_hybrid {db : DB} {text : String} {e : List ℚ}
    {fl : ℕ} {w : ℚ} {t : String} {h : Hit}
    (hm : h ∈ categoryHits db text e true fl w t) :
    ∃ table h', db.openTable t = .ok table ∧
      h' ∈ hybrid_search table text e fl w ∧
      h = { h' with category := some t } := by
  unfold categoryHits at hm
  cases hop : db.openTable t with
  | error u => rw [hop] at hm; simp at hm
  | ok table =>
    rw [hop] at hm
    simp only [if_true] at hm
    obtain ⟨h', hh', heq⟩ := List.mem_map.mp hm
    exact ⟨table, h', rfl, hh', heq.symm⟩

/-- In vector-only mode, a category's contribution is a tagged raw hit. -/
theorem mem_categoryHits_vector {db : DB} {text : String} {e : List ℚ}
    {fl : ℕ} {w : ℚ} {t : String} {h : Hit}
    (hm : h ∈ categoryHits db text e false fl w t) :
    ∃ table r, db.openTable t = .ok table ∧
      (∃ raw, table.vectorSearch e fl = .ok raw ∧ r ∈ raw) ∧
      h = { r.toHit with category := some t } := by
  unfold categoryHits at hm
  cases hop : db.openTable t with
  | error u => rw [hop] at hm; simp at hm
  | ok table =>
    rw [hop] at hm
    simp only [Bool.false_eq_true, if_false] at hm
    cases hvs : table.vectorSearch e fl with
    | error u => rw [hvs] at hm; simp at hm
    | ok raw =>
      rw [hvs] at hm
      obtain ⟨r, hr, heq⟩ := List.mem_map.mp hm
      exact ⟨table, r, rfl, ⟨raw, hvs, hr⟩, heq.symm⟩

/-- Claim C3, corrected: `query` performs no argument validation and never
raises a validation error.  An unknown named category is silently skipped
(the `open_table` failure is caught by the per-category handler), so the
call returns the empty list instead of raising; a non-positive limit
(`0` in this natural-number model) likewise yields the empty list; and an
out-of-range `hybridWeight` is accepted and used unchanged in the RRF
formula — the adapters are invoked regardless. -/
theorem C3_no_validation :
    (∀ (db : DB) (embed : String → List ℚ) (model : String → String → ℚ)
      (text c : String) (lim : ℕ) (r hy : Bool) (w : ℚ), c ≠ "all" →
      db.openTable c = .error () →
      query db embed model text c lim r hy w = []) ∧
    (∀ (db : DB) (embed : String → List ℚ) (model : String → String → ℚ)
      (text c : String) (r hy : Bool) (w : ℚ),
      query db embed model text c 0 r hy w = []) ∧
    (∀ (db : DB) (embed : String → List ℚ) (model : String → String → ℚ)
      (text c : String) (lim : ℕ) (w : ℚ) (h : Hit),
      h ∈ query db embed model text c lim false true w →
      h.hybridScore = some (rrfScore w (h.vectorRank.getD RRF_FALLBACK_RANK)
        (h.ftsRank.getD RRF_FALLBACK_RANK))) := by
  refine ⟨?_, ?_, ?_⟩
  · intro db embed model text c lim r hy w hc hop
    have h1 : globalCandidates db text (embed text) hy (fetchLimit lim r) w c = [] := by
      unfold globalCandidates queryTables
      rw [if_neg hc]
      simp [categoryHits, hop]
    unfold query
    simp only [h1]
    cases hy <;> cases r <;>
      simp [sortHybridDesc, sortDistAsc, List.insertionSort, rerank]
  · intro db embed model text c r hy w
    have hf : fetchLimit 0 r = 0 := by cases r <;> simp [fetchLimit]
    unfold query
    simp only [hf]
    simp
  · intro db embed model text c lim w h hm
    obtain ⟨t, hcat⟩ := mem_globalCandidates (mem_query_cands hm)
    obtain ⟨table, h', _, hh', rfl⟩ := mem_categoryHits_hybrid hcat
    obtain ⟨p, _, rfl⟩ := mem_hybrid_search hh'
    simp

/-- A one-category database around `tblA`. -/
def dbA : DB :=
  { listTables := ["A"]
    openTable := fun n => if n = "A" then .ok tblA else .error () }

/-- Counterexample to claim C3 as stated: with `hybridWeight = 2`, far
outside `[0,1]`, `query` does not raise any validation error; it invokes
the vector adapter (whose hit is returned) and computes the score with
the invalid weight: `2/60 + (1-2)/1060 = 103/3180`. -/
theorem C3_counterexample :
    (query dbA embedQ model0 "q" "A" 1 false true 2).map
      (fun h => (h.content, h.hybridScore)) = [("a0", some (103/3180))] := by
  with_unfolding_all rfl

theorem C3_no_validation_witness :
    query dbErr embedQ model0 "q" "nope" 5 false true 2 = [] ∧
    query dbA embedQ model0 "q" "A" 0 false true 2 = [] ∧
    (⟨"a0", some (1/10), some 0, none, some (103/3180), none, some "A"⟩ : Hit).hybridScore =
      some (rrfScore 2
        ((⟨"a0", some (1/10), some 0, none, some (103/3180), none,
          some "A"⟩ : Hit).vectorRank.getD RRF_FALLBACK_RANK)
        ((⟨"a0", some (1/10), some 0, none, some (103/3180), none,
          some "A"⟩ : Hit).ftsRank.getD RRF_FALLBACK_RANK)) := by
  refine ⟨C3_no_validation.1 dbErr embedQ model0 "q" "nope" 5 false true 2
      (by decide) rfl,
    C3_no_validation.2.1 dbA embedQ model0 "q" "A" false true 2, ?_⟩
  have hlist : query dbA embedQ model0 "q" "A" 1 false true 2 =
      [⟨"a0", some (1/10), some 0, none, some (103/3180), none, some "A"⟩] := by
    with_unfolding_all rfl
  have hmem : (⟨"a0", some (1/10), some 0, none, some (103/3180), none,
      some "A"⟩ : Hit) ∈ query dbA embedQ model0 "q" "A" 1 false true 2 := by
    rw [hlist]
    exact List.mem_singleton_self _
  exact C3_no_validation.2.2 dbA embedQ model0 "q" "A" 1 2 _ hmem

/-- Every entry of `results_map` lacks a rerank score: rerank scores are
only ever attached later, by `rerank` itself. -/
theorem buildMap_rerankScore_none {V F : List RawHit} {p : String × Hit}
    (hp : p ∈ buildMap V F) : p.2.rerankScore = none := by
  have hlk := lookup_of_mem (nodupKeys_buildMap V F) hp
  have hbm := buildMap_lookup V F p.1
  rw [hlk] at hbm
  by_cases hcond : (firstIdx (fun r => r.content == p.1) V = none ∧
      firstIdx (fun r => r.content == p.1) F = none)
  · rw [if_pos hcond] at hbm
    simp at hbm
  · rw [if_neg hcond] at hbm
    obtain ⟨_, _, h3⟩ :
        p.2.vectorRank = firstIdx (fun r => r.content == p.1) V ∧
        p.2.ftsRank = firstIdx (fun r => r.content == p.1) F ∧
        p.2.rerankScore = none := by simpa using hbm
    exact h3

/-- Every hit returned by `rerank` is a candidate with the model's score
attached. -/
theorem mem_rerank {model : String → String → ℚ} {qt : String}
    {results : List Hit} {top_k : ℕ} {h : Hit}
    (hm : h ∈ rerank model qt results top_k) :
    ∃ r ∈ results, h = { r with rerankScore := some (model qt r.content) } := by
  unfold rerank at hm
  by_cases he : results.isEmpty
  · rw [if_pos he, List.isEmpty_iff.mp he] at hm
    simp at hm
  · rw [if_neg he] at hm
    have h1 := List.mem_of_mem_take hm
    rw [List.mem_insertionSort] at h1
    obtain ⟨r, hr, rfl⟩ := List.mem_map.mp h1
    exact ⟨r, hr, rfl⟩

/-- Claim C5, corrected: the score keys a returned hit carries are
determined by the mode — a vector-only hit carries neither `hybridScore`
nor `rerankScore`, a hybrid-mode hit always carries a `hybridScore` and no
`rerankScore`, and a hybrid+rerank hit carries both — but, contrary to the
claim as stated, a hybrid-mode hit is a copy of the underlying search hit
and therefore also retains its `distance` column when it was found by the
vector search; the combinations are not mutually exclusive. -/
theorem C5_score_fields_by_mode :
    (∀ (db : DB) (embed : String → List ℚ) (model : String → String → ℚ)
      (text cat : String) (lim : ℕ) (w : ℚ) (h : Hit),
      h ∈ query db embed model text cat lim false false w →
      h.hybridScore = none ∧ h.rerankScore = none) ∧
    (∀ (db : DB) (embed : String → List ℚ) (model : String → String → ℚ)
      (text cat : String) (lim : ℕ) (w : ℚ) (h : Hit),
      h ∈ query db embed model text cat lim false true w →
      (∃ s, h.hybridScore = some s) ∧ h.rerankScore = none) ∧
    (∀ (db : DB) (embed : String → List ℚ) (model : String → String → ℚ)
      (text cat : String) (lim : ℕ) (w : ℚ) (h : Hit),
      h ∈ query db embed model text cat lim true true w →
      (∃ s, h.hybridScore = some s) ∧ (∃ s, h.rerankScore = some s)) := by
  refine ⟨?_, ?_, ?_⟩
  · intro db embed model text cat lim w h hm
    obtain ⟨t, hcat⟩ := mem_globalCandidates (mem_query_cands hm)
    obtain ⟨table, r, _, _, rfl⟩ := mem_categoryHits_vector hcat
    exact ⟨rfl, rfl⟩
  · intro db embed model text cat lim w h hm
    obtain ⟨t, hcat⟩ := mem_globalCandidates (mem_query_cands hm)
    obtain ⟨table, h', _, hh', rfl⟩ := mem_categoryHits_hybrid hcat
    obtain ⟨p, hp, rfl⟩ := mem_hybrid_search hh'
    exact ⟨⟨_, rfl⟩, buildMap_rerankScore_none hp⟩
  · intro db embed model text cat lim w h hm
    unfold query at hm
    simp only [Bool.true_and, if_true] at hm
    by_cases hre : (List.take (fetchLimit lim true)
        (sortHybridDesc (globalCandidates db text (embed text) true
          (fetchLimit lim true) w cat))).isEmpty
    · rw [List.isEmpty_iff.mp hre] at hm
      simp [rerank] at hm
    · have hb : (!(List.take (fetchLimit lim true)
          (sortHybridDesc (globalCandidates db text (embed text) true
            (fetchLimit lim true) w cat))).isEmpty) = true := by
        simp [hre]
      rw [if_pos hb] at hm
      obtain ⟨r, hr, rfl⟩ := mem_rerank hm
      refine ⟨?_, ⟨_, rfl⟩⟩
      have hrc : r ∈ globalCandidates db text (embed text) true
          (fetchLimit lim true) w cat := by
        have h1 := List.mem_of_mem_take hr
        rw [sortHybridDesc, List.mem_insertionSort] at h1
        exact h1
      obtain ⟨t, hcat⟩ := mem_globalCandidates hrc
      obtain ⟨table, h', _, hh', rfl⟩ := mem_categoryHits_hybrid hcat
      obtain ⟨p, hp, rfl⟩ := mem_hybrid_search hh'
      exact ⟨_, rfl⟩

/-- Counterexample to claim C5 as stated: a hybrid-mode hit found by the
vector search also carries the vector hit's `distance` — the returned
record has both keys present, so hybrid hits do not carry `hybridScore`
alone. -/
theorem C5_counterexample :
    (query dbA embedQ model0 "q" "A" 1 false true (7/10)).map
      (fun h => (h.distance.isSome, h.hybridScore.isSome)) = [(true, true)] := by
  with_unfolding_all rfl

theorem C5_score_fields_by_mode_witness :
    ((⟨"a0", some (1/10), none, none, none, none, some "A"⟩ : Hit).hybridScore =
        none ∧
      (⟨"a0", some (1/10), none, none, none, none, some "A"⟩ : Hit).rerankScore =
        none) ∧
    ((∃ s, (⟨"a0", some (1/10), some 0, none, some (1/60), none,
        some "A"⟩ : Hit).hybridScore = some s) ∧
      (⟨"a0", some (1/10), some 0, none, some (1/60), none,
        some "A"⟩ : Hit).rerankScore = none) ∧
    ((∃ s, (⟨"a0", some (1/10), some 0, none, some (1/60), some 0,
        some "A"⟩ : Hit).hybridScore = some s) ∧
      (∃ s, (⟨"a0", some (1/10), some 0, none, some (1/60), some 0,
        some "A"⟩ : Hit).rerankScore = some s)) := by
  have ha : query dbA embedQ model0 "q" "A" 1 false false (7/10) =
      [⟨"a0", some (1/10), none, none, none, none, some "A"⟩] := by
    with_unfolding_all rfl
  have hb : query dbA embedQ model0 "q" "A" 1 false true 1 =
      [⟨"a0", some (1/10), some 0, none, some (1/60), none, some "A"⟩] := by
    with_unfolding_all rfl
  have hc : query dbA embedQ model0 "q" "A" 1 true true 1 =
      [⟨"a0", some (1/10), some 0, none, some (1/60), some 0, some "A"⟩] := by
    with_unfolding_all rfl
  refine ⟨C5_score_fields_by_mode.1 dbA embedQ model0 "q" "A" 1 (7/10) _ ?_,
    C5_score_fields_by_mode.2.1 dbA embedQ model0 "q" "A" 1 1 _ ?_,
    C5_score_fields_by_mode.2.2 dbA embedQ model0 "q" "A" 1 1 _ ?_⟩
  · rw [ha]; exact List.mem_singleton_self _
  · rw [hb]; exact List.mem_singleton_self _
  · rw [hc]; exact List.mem_singleton_self _

theorem perm_flatten {α : Type _} {l₁ l₂ : List (List α)} (h : l₁.Perm l₂) :
    l₁.flatten.Perm l₂.flatten := by
  induction h with
  | nil => exact List.Perm.refl _
  | cons x _ ih => simpa using ih.append_left x
  | swap x y l =>
    simp only [List.flatten_cons]
    rw [← List.append_assoc, ← List.append_assoc]
    exact List.perm_append_comm.append_right _
  | trans _ _ ih₁ ih₂ => exact ih₁.trans ih₂

/-- Two sorted lists that are permutations of each other are equal, given
antisymmetry of the order on their members. -/
theorem sorted_perm_eq_of_antisymm {α : Type _} {r : α → α → Prop} :
    ∀ {l₁ l₂ : List α}, l₁.Perm l₂ → l₁.Sorted r → l₂.Sorted r →
      (∀ a ∈ l₁, ∀ b ∈ l₁, r a b → r b a → a = b) → l₁ = l₂ := by
  intro l₁
  induction l₁ with
  | nil =>
    intro l₂ hp _ _ _
    exact hp.nil_eq
  | cons a t₁ ih =>
    intro l₂ hp hs₁ hs₂ hanti
    cases l₂ with
    | nil =>
      have := hp.length_eq
      simp at this
    | cons b t₂ =>
      have hab : a = b := by
        have hbmem : b ∈ a :: t₁ := hp.mem_iff.mpr (List.mem_cons_self b t₂)
        have hamem : a ∈ b :: t₂ := hp.mem_iff.mp (List.mem_cons_self a t₁)
        rcases List.mem_cons.mp hbmem with h1 | h1
        · exact h1.symm
        rcases List.mem_cons.mp hamem with h2 | h2
        · exact h2
        · have hrab : r a b := (List.pairwise_cons.mp hs₁).1 b h1
          have hrba : r b a := (List.pairwise_cons.mp hs₂).1 a h2
          exact hanti a (List.mem_cons_self a t₁) b hbmem hrab hrba
      subst hab
      have hp' : t₁.Perm t₂ := hp.cons_inv
      have ht := ih hp' (List.pairwise_cons.mp hs₁).2 (List.pairwise_cons.mp hs₂).2
        (fun x hx y hy hxy hyx =>
          hanti x (List.mem_cons_of_mem _ hx) y (List.mem_cons_of_mem _ hy) hxy hyx)
      rw [ht]

/-- Claim C4, corrected: permuting the category iteration order yields the
same output sequence provided the hybrid scores of the global candidates
are pairwise distinct.  When scores tie, the stable global sort keeps the
insertion order — which is the category iteration order — so iteration
order, not an explicit secondary key, breaks ties (see the
counterexample). -/
theorem C4_iteration_order_independent
    (db : DB) (ts₂ : List String) (embed : String → List ℚ)
    (model : String → String → ℚ) (text : String) (lim : ℕ)
    (use_rerank : Bool) (w : ℚ)
    (hperm : ts₂.Perm db.listTables)
    (hnodup : ((globalCandidates db text (embed text) true
        (fetchLimit lim use_rerank) w "all").map hybridKey).Nodup) :
    query { db with listTables := ts₂ } embed model text "all" lim
        use_rerank true w =
      query db embed model text "all" lim use_rerank true w := by
  have hcands : (globalCandidates { db with listTables := ts₂ } text
      (embed text) true (fetchLimit lim use_rerank) w "all").Perm
      (globalCandidates db text (embed text) true
        (fetchLimit lim use_rerank) w "all") := by
    unfold globalCandidates queryTables
    rw [if_pos rfl, if_pos rfl]
    exact perm_flatten (hperm.map _)
  have hsorted : sortHybridDesc (globalCandidates { db with listTables := ts₂ }
      text (embed text) true (fetchLimit lim use_rerank) w "all") =
      sortHybridDesc (globalCandidates db text (embed text) true
        (fetchLimit lim use_rerank) w "all") := by
    unfold sortHybridDesc
    refine sorted_perm_eq_of_antisymm
      ((List.perm_insertionSort hybridGE _).trans
        (hcands.trans (List.perm_insertionSort hybridGE _).symm))
      (List.sorted_insertionSort hybridGE _)
      (List.sorted_insertionSort hybridGE _) ?_
    intro x hx y hy hxy hyx
    have hx' : x ∈ globalCandidates db text (embed text) true
        (fetchLimit lim use_rerank) w "all" :=
      hcands.mem_iff.mp ((List.mem_insertionSort hybridGE).mp hx)
    have hy' : y ∈ globalCandidates db text (embed text) true
        (fetchLimit lim use_rerank) w "all" :=
      hcands.mem_iff.mp ((List.mem_insertionSort hybridGE).mp hy)
    exact List.inj_on_of_nodup_map hnodup hx' hy'
      (le_antisymm (hyx : hybridKey x ≤ hybridKey y)
        (hxy : hybridKey y ≤ hybridKey x))
  unfold query
  simp only [hsorted, if_true]

/-- Identical one-hit tables under two iteration orders: both hits get
vector rank 0 and hence equal hybrid scores. -/
def tblT1 : Table :=
  { vectorSearch := fun _ _ => .ok [⟨"ta", some (1/10)⟩]
    ftsSearch := fun _ _ => .error () }

def tblT2 : Table :=
  { vectorSearch := fun _ _ => .ok [⟨"tb", some (2/10)⟩]
    ftsSearch := fun _ _ => .error () }

def openT : String → Except Unit Table := fun n =>
  if n = "A" then .ok tblT1 else if n = "B" then .ok tblT2 else .error ()

def dbT : DB := { listTables := ["A", "B"], openTable := openT }

def dbTswap : DB := { listTables := ["B", "A"], openTable := openT }

/-- Counterexample to claim C4 as stated: with two categories whose top
hits tie on the hybrid score, permuting the category iteration order
permutes the output — the tie is broken by iteration order, not by a
stable explicit secondary key. -/
theorem C4_counterexample :
    (query dbTswap embedQ model0 "q" "all" 2 false true (7/10)).map
        (fun h => h.content) ≠
      (query dbT embedQ model0 "q" "all" 2 false true (7/10)).map
        (fun h => h.content) := by
  have h1 : (query dbTswap embedQ model0 "q" "all" 2 false true (7/10)).map
      (fun h => h.content) = ["tb", "ta"] := by
    with_unfolding_all rfl
  have h2 : (query dbT embedQ model0 "q" "all" 2 false true (7/10)).map
      (fun h => h.content) = ["ta", "tb"] := by
    with_unfolding_all rfl
  rw [h1, h2]
  decide

/-- Two one-hit tables with distinct hybrid scores (the second table's hit
is found by both modalities). -/
def tblW2 : Table :=
  { vectorSearch := fun _ _ => .ok [⟨"b0", some (1/10)⟩]
    ftsSearch := fun _ _ => .ok [⟨"b0", some (1/10)⟩] }

def dbW : DB :=
  { listTables := ["A", "B"]
    openTable := fun n =>
      if n = "A" then .ok tblA else if n = "B" then .ok tblW2 else .error () }

theorem C4_iteration_order_independent_witness :
    (["B", "A"] : List String).Perm dbW.listTables ∧
    ((globalCandidates dbW "q" (embedQ "q") true (fetchLimit 2 false) (7/10)
      "all").map hybridKey).Nodup ∧
    query { dbW with listTables := ["B", "A"] } embedQ model0 "q" "all" 2
        false true (7/10) =
      query dbW embedQ model0 "q" "all" 2 false true (7/10) := by
  have hp : (["B", "A"] : List String).Perm dbW.listTables :=
    List.Perm.swap "A" "B" []
  have hn : ((globalCandidates dbW "q" (embedQ "q") true (fetchLimit 2 false)
      (7/10) "all").map hybridKey).Nodup := by
    have hl : (globalCandidates dbW "q" (embedQ "q") true (fetchLimit 2 false)
        (7/10) "all").map hybridKey = [19/1590, 1/60] := by
      with_unfolding_all rfl
    rw [hl]
    norm_num
  exact ⟨hp, hn, C4_iteration_order_independent dbW ["B", "A"] embedQ model0
    "q" 2 false (7/10) hp hn⟩

/-- The entry list built by the vector loop from fresh, duplicate-free
contents: the `j`-th entry carries vector rank `i + j`. -/
def vmap (i : ℕ) : List RawHit → List (String × Hit)
  | [] => []
  | r :: rest =>
    (r.content, { r.toHit with vectorRank := some i }) :: vmap (i + 1) rest

theorem addVectorHits_fresh :
    ∀ {V : List RawHit} (i : ℕ) {m : List (String × Hit)},
      (∀ r ∈ V, lookup m r.content = none) → (V.map (·.content)).Nodup →
      addVectorHits m i V = m ++ vmap i V
  | [], i, m, _, _ => by simp [addVectorHits, vmap]
  | r :: rest, i, m, hfresh, hnd => by
    rw [show addVectorHits m i (r :: rest) =
        addVectorHits (addVectorHit i r m) (i + 1) rest from rfl]
    have hl : lookup m r.content = none := hfresh r (List.mem_cons_self _ _)
    rw [addVectorHit_of_none i r m hl]
    have hnd' := List.nodup_cons.mp
      (show (r.content :: rest.map (·.content)).Nodup from hnd)
    have hfresh' : ∀ r' ∈ rest,
        lookup (m ++ [(r.content, { r.toHit with vectorRank := some i })])
          r'.content = none := by
      intro r' hr'
      rw [lookup_append, hfresh r' (List.mem_cons_of_mem _ hr'),
        lookup_singleton]
      have hne : r.content ≠ r'.content := by
        intro hcc
        exact hnd'.1 (hcc ▸ List.mem_map_of_mem (·.content) hr')
      simp [hne]
    rw [addVectorHits_fresh (i + 1) hfresh' hnd'.2, List.append_assoc]
    rfl

theorem vmap_scored_content :
    ∀ (V : List RawHit) (i : ℕ) (w : ℚ),
      (((vmap i V).map fun p => scoreHit w p.2).map (·.content)) =
        V.map (·.content)
  | [], _, _ => rfl
  | r :: rest, i, w => by
    simp only [vmap, List.map_cons, scoreHit_content]
    rw [vmap_scored_content rest (i + 1) w]
    simp [RawHit.toHit]

theorem mem_vmap_scored :
    ∀ {V : List RawHit} {i : ℕ} {w : ℚ} {y : Hit},
      y ∈ ((vmap i V).map fun p => scoreHit w p.2) →
      ∃ j, i ≤ j ∧ y.hybridScore = some (rrfScore w j RRF_FALLBACK_RANK)
  | [], _, _, _, hm => absurd hm (by simp [vmap])
  | r :: rest, i, w, y, hm => by
    rw [show vmap i (r :: rest) =
        (r.content, { r.toHit with vectorRank := some i }) ::
          vmap (i + 1) rest from rfl, List.map_cons] at hm
    rcases List.mem_cons.mp hm with hy | hy
    · refine ⟨i, le_refl i, ?_⟩
      rw [hy]
      simp [RawHit.toHit]
    · obtain ⟨j, hij, hsc⟩ := mem_vmap_scored hy
      exact ⟨j, by omega, hsc⟩

theorem rrfScore_anti (w : ℚ) (hw : 0 ≤ w) {i j : ℕ} (hij : i ≤ j) :
    rrfScore w j RRF_FALLBACK_RANK ≤ rrfScore w i RRF_FALLBACK_RANK := by
  unfold rrfScore
  have h1 : w / (60 + (j:ℚ)) ≤ w / (60 + (i:ℚ)) := by
    gcongr
  linarith

theorem vmap_scored_sorted (w : ℚ) (hw : 0 ≤ w) :
    ∀ (V : List RawHit) (i : ℕ),
      (((vmap i V).map fun p => scoreHit w p.2)).Sorted hybridGE
  | [], _ => by simp [vmap]
  | r :: rest, i => by
    rw [show vmap i (r :: rest) =
        (r.content, { r.toHit with vectorRank := some i }) ::
          vmap (i + 1) rest from rfl, List.map_cons]
    refine List.pairwise_cons.mpr ⟨?_, vmap_scored_sorted w hw rest (i + 1)⟩
    intro y hy
    obtain ⟨j, hij, hsc⟩ := mem_vmap_scored hy
    show hybridKey y ≤ hybridKey _
    rw [hybridKey, hsc]
    have hhead : hybridKey (scoreHit w { r.toHit with vectorRank := some i }) =
        rrfScore w i RRF_FALLBACK_RANK := by
      simp [hybridKey, RawHit.toHit]
    rw [hhead]
    exact rrfScore_anti w hw (by omega)

/-- With duplicate-free vector hits and empty FTS hits, `hybrid_search`
returns the vector hits in order, scored and truncated. -/
theorem hybrid_search_fresh (table : Table) (text : String) (e : List ℚ)
    (lim : ℕ) (w : ℚ) (V : List RawHit)
    (hV : table.vectorSearch e (lim * 2) = .ok V)
    (hF : table.ftsSearch text (lim * 2) = .ok [])
    (hnd : (V.map (·.content)).Nodup) (hw : 0 ≤ w) :
    hybrid_search table text e lim w =
      (((vmap 0 V).map fun p => scoreHit w p.2)).take lim := by
  have hbm : buildMap V [] = vmap 0 V := by
    unfold buildMap
    rw [show addFtsHits (addVectorHits [] 0 V) 0 [] =
        addVectorHits [] 0 V from rfl]
    have h := addVectorHits_fresh (V := V) 0 (m := []) (fun r _ => rfl) hnd
    simpa using h
  unfold hybrid_search
  simp only [hV, hF]
  rw [show exceptList (Except.ok V) = V from rfl,
    show exceptList (Except.ok ([] : List RawHit)) = [] from rfl, hbm]
  unfold sortHybridDesc
  rw [(vmap_scored_sorted w hw V 0).insertionSort_eq]

/-- Projecting contents is transparent to the category tag. -/
theorem map_content_tag (l : List Hit) (c : String) :
    ((l.map fun h => { h with category := some c }).map (·.content)) =
      l.map (·.content) := by
  rw [List.map_map]
  rfl

/-- Claim C2, corrected: for a single named category whose vector adapter
returns the same duplicate-free hit list (sorted by ascending distance,
as the adapter contract promises) at both fetch sizes, and whose FTS
search returns the empty list, hybrid-mode output contains the same items
in the same order as vector-only output for the same limit.  As stated —
over multiple categories — the claim fails: hybrid mode ranks by
per-category rank-fusion scores while vector-only mode ranks by raw
distance, and these interleave categories differently (see the
counterexample). -/
theorem C2_graceful_degradation
    (db : DB) (embed : String → List ℚ) (model : String → String → ℚ)
    (text cat : String) (lim : ℕ) (w : ℚ) (table : Table) (V : List RawHit)
    (hcat : cat ≠ "all")
    (hop : db.openTable cat = .ok table)
    (hV2 : table.vectorSearch (embed text) (lim * 2) = .ok V)
    (hV1 : table.vectorSearch (embed text) lim = .ok V)
    (hF : table.ftsSearch text (lim * 2) = .ok [])
    (hnd : (V.map (·.content)).Nodup)
    (hdist : V.Pairwise fun a b => distLeB a.distance b.distance = true)
    (hw0 : 0 ≤ w) (hw1 : w ≤ 1) :
    (query db embed model text cat lim false true w).map (·.content) =
      (query db embed model text cat lim false false w).map (·.content) := by
  have hfetch : fetchLimit lim false = lim := rfl
  have hLsorted := vmap_scored_sorted w hw0 V 0
  have hcatH : categoryHits db text (embed text) true lim w cat =
      ((((vmap 0 V).map fun p => scoreHit w p.2).take lim).map
        fun h => { h with category := some cat }) := by
    unfold categoryHits
    rw [hop]
    simp only [if_true]
    rw [hybrid_search_fresh table text (embed text) lim w V hV2 hF hnd hw0]
  have hglobH : globalCandidates db text (embed text) true lim w cat =
      ((((vmap 0 V).map fun p => scoreHit w p.2).take lim).map
        fun h => { h with category := some cat }) := by
    unfold globalCandidates queryTables
    rw [if_neg hcat]
    simp [hcatH]
  have htagSorted : (((((vmap 0 V).map fun p => scoreHit w p.2).take lim).map
      fun h => { h with category := some cat })).Sorted hybridGE :=
    List.Pairwise.map _ (fun a b hab => hab)
      (hLsorted.sublist (List.take_sublist _ _))
  have hlen : (((((vmap 0 V).map fun p => scoreHit w p.2).take lim).map
      fun h => { h with category := some cat })).length ≤ lim := by
    simp [List.length_take]
  have hqueryH : query db embed model text cat lim false true w =
      ((((vmap 0 V).map fun p => scoreHit w p.2).take lim).map
        fun h => { h with category := some cat }) := by
    unfold query
    simp only [hfetch, hglobH, Bool.false_and, if_false, if_true]
    unfold sortHybridDesc
    rw [htagSorted.insertionSort_eq, List.take_take, Nat.min_self,
      List.take_of_length_le hlen]
    simp
  have hcatV : categoryHits db text (embed text) false lim w cat =
      V.map fun r => { r.toHit with category := some cat } := by
    unfold categoryHits
    rw [hop]
    simp only [Bool.false_eq_true, if_false]
    rw [hV1]
  have hglobV : globalCandidates db text (embed text) false lim w cat =
      V.map fun r => { r.toHit with category := some cat } := by
    unfold globalCandidates queryTables
    rw [if_neg hcat]
    simp [hcatV]
  have hMsorted : ((V.map fun r =>
      ({ r.toHit with category := some cat } : Hit))).Sorted distLeRel :=
    List.Pairwise.map _ (fun a b hab => hab) hdist
  have hqueryV : query db embed model text cat lim false false w =
      (V.map fun r => { r.toHit with category := some cat }).take lim := by
    unfold query
    simp only [hfetch, hglobV, Bool.false_and, if_false, Bool.false_eq_true]
    unfold sortDistAsc
    rw [hMsorted.insertionSort_eq, List.take_take, Nat.min_self]
  rw [hqueryH, hqueryV, map_content_tag, List.map_take, List.map_take,
    vmap_scored_content V 0 w]
  congr 1
  rw [List.map_map]
  rfl

/-- Two categories with empty FTS results whose distances interleave:
`"A"` holds hits at distances 1/10 and 12/100, `"B"` one hit at 1/2. -/
def tblC2A : Table :=
  { vectorSearch := fun _ _ => .ok [⟨"a0", some (1/10)⟩, ⟨"a1", some (12/100)⟩]
    ftsSearch := fun _ _ => .ok [] }

def tblC2B : Table :=
  { vectorSearch := fun _ _ => .ok [⟨"b0", some (1/2)⟩]
    ftsSearch := fun _ _ => .ok [] }

def dbC2 : DB :=
  { listTables := ["A", "B"]
    openTable := fun n =>
      if n = "A" then .ok tblC2A else if n = "B" then .ok tblC2B
      else .error () }

/-- Counterexample to claim C2 as stated: with FTS empty for every
category and identical vector hits at both fetch sizes, hybrid mode
returns `a0, b0, a1` — the two rank-0 hits tie on the RRF score and beat
the rank-1 hit — while vector-only mode returns `a0, a1, b0` by ascending
distance.  The outputs differ in order. -/
theorem C2_counterexample :
    (query dbC2 embedQ model0 "q" "all" 3 false true (7/10)).map (·.content) ≠
      (query dbC2 embedQ model0 "q" "all" 3 false false (7/10)).map
        (·.content) := by
  have h1 : (query dbC2 embedQ model0 "q" "all" 3 false true (7/10)).map
      (·.content) = ["a0", "b0", "a1"] := by
    with_unfolding_all rfl
  have h2 : (query dbC2 embedQ model0 "q" "all" 3 false false (7/10)).map
      (·.content) = ["a0", "a1", "b0"] := by
    with_unfolding_all rfl
  rw [h1, h2]
  decide

theorem C2_graceful_degradation_witness :
    tblC2A.ftsSearch "q" (3 * 2) = .ok [] ∧
    (([⟨"a0", some (1/10)⟩, ⟨"a1", some (12/100)⟩] : List RawHit).map
      (·.content)).Nodup ∧
    (query dbC2 embedQ model0 "q" "A" 3 false true (7/10)).map (·.content) =
      (query dbC2 embedQ model0 "q" "A" 3 false false (7/10)).map
        (·.content) := by
  refine ⟨rfl, by decide, ?_⟩
  refine C2_graceful_degradation dbC2 embedQ model0 "q" "A" 3 (7/10) tblC2A
    [⟨"a0", some (1/10)⟩, ⟨"a1", some (12/100)⟩] (by decide) rfl rfl rfl rfl
    (by decide) ?_ (by norm_num) (by norm_num)
  refine List.Pairwise.cons ?_ (List.pairwise_singleton _ _)
  intro b hb
  rw [List.mem_singleton.mp hb]
  show distLeB (some (1/10)) (some (12/100)) = true
  simp [distLeB]
  norm_num

end RagQuery
